import Mathlib

/-
Verification of the SkyhubB2W image-ingestion pipeline (skyhub_server.go).

The Go source is shallowly embedded below:
* pure string manipulation (nameFromUrl, store-name construction) becomes
  Lean functions over `String` / `List Char`, with Go byte indices modelled
  as character indices (all inputs of interest are ASCII);
* the external world (HTTP transport, jpeg decoding, file system, MongoDB)
  is modelled by explicit oracles and by explicit state passing: the file
  system and the Mongo collection are association lists keyed by path /
  document name, `writeA` implementing overwrite-or-append exactly as
  `os.Create` and `mgo`'s `Upsert` (keyed by Name) behave;
* fallible Go code returns an error value; a Go runtime panic (slice bounds
  out of range) is a distinguished `GoResult.panicked` outcome.
-/

set_option autoImplicit false
set_option maxRecDepth 8192
set_option linter.dupNamespace false
set_option linter.unusedVariables false

namespace SkyhubModel

/-- The error values the Go code can return (`http.Get` / `ioutil.ReadAll`
failure, `jpeg.Decode` failure, the `errors.New` of `nameFromUrl`,
`os.Create`/`jpeg.Encode` failure in `saveImgToFile`, `db.Upsert` failure,
`json.Unmarshal` failure). Only the identity of the error matters here. -/
inductive GoErr where
  | transport
  | decodeFail
  | parseName
  | createFile
  | upsertFail
  | unmarshalFail
deriving DecidableEq, Repr

/-- Outcome of a Go computation: a value, a returned error, or a runtime
panic (the Go program crashing, e.g. on a slice-bounds violation). -/
inductive GoResult (α : Type) where
  | ok (a : α)
  | err (e : GoErr)
  | panicked
deriving DecidableEq, Repr

/-- `strings.LastIndex s c` for a one-character needle: the index of the
last occurrence of `c` in `s`, `-1` if `c` does not occur. -/
def lastIndexList : List Char → Char → Int
  | [], _ => -1
  | a :: rest, c =>
    let r := lastIndexList rest c
    if 0 ≤ r then r + 1 else if a = c then 0 else -1

/-- Go slicing `s[i:j]` on the underlying character sequence (callers are
responsible for the bounds check `0 ≤ i ≤ j ≤ len s`, as in Go). -/
def goSliceData (s : List Char) (i j : Nat) : List Char :=
  (s.take j).drop i

/-- Embedding of `nameFromUrl` (skyhub_server.go:129-136):

  leftIndex  := strings.LastIndex(imgurl, "/") + 1
  rightIndex := strings.LastIndex(imgurl, ".")
  if leftIndex == -1 || rightIndex == -1 { return error }
  return imgurl[leftIndex:rightIndex]

The final slice panics in Go unless `0 ≤ leftIndex ≤ rightIndex ≤ len`,
which the embedding reflects with the explicit bounds test. -/
def nameFromUrl (imgurl : String) : GoResult String :=
  let leftIndex : Int := lastIndexList imgurl.data '/' + 1
  let rightIndex : Int := lastIndexList imgurl.data '.'
  if leftIndex = -1 ∨ rightIndex = -1 then
    .err .parseName
  else if 0 ≤ leftIndex ∧ leftIndex ≤ rightIndex ∧ rightIndex ≤ (imgurl.data.length : Int) then
    .ok ⟨goSliceData imgurl.data leftIndex.toNat rightIndex.toNat⟩
  else
    .panicked

example : nameFromUrl "http://54.152.221.29/images/b737_3.jpg" = .ok "b737_3" := by decide
example : nameFromUrl "foo.jpg" = .ok "foo" := by decide
example : nameFromUrl "foojpg" = .err .parseName := by decide
example : nameFromUrl "http://host.com/noextension" = .panicked := by decide

/-! ### The manifest endpoint (consumeEndpoint) -/

/-- A JSON value, as produced by Go's `encoding/json` parser. -/
inductive Json where
  | null
  | bool (b : Bool)
  | num (n : Int)
  | str (s : String)
  | arr (elems : List Json)
  | obj (fields : List (String × Json))

/-- The `Url` struct of the source: `type Url struct { Url string }`. -/
structure Url where
  Url : String
deriving DecidableEq, Repr

/-- The `SkyhubResponse` struct of the source:
`type SkyhubResponse struct { Images []Url }`. -/
structure SkyhubResponse where
  Images : List Url
deriving DecidableEq, Repr

/-- `json.Unmarshal` of a JSON value into a fresh `Url` struct, with Go's
semantics: `null` is a no-op (the zero value `Url{""}` remains); an object
assigns each `"Url"` member in order, requiring a string (a `null` member
is a no-op, anything else is an unmarshal type error); any other JSON
value cannot be unmarshalled into a struct. Go additionally matches field
names case-insensitively; no input considered here exercises that. -/
def unmarshalUrl : Json → Except GoErr Url
  | .null => .ok ⟨""⟩
  | .obj fields =>
    (fields.foldlM (fun acc f =>
      if f.1 = "Url" then
        match f.2 with
        | .str s => Except.ok s
        | .null => Except.ok acc
        | _ => Except.error GoErr.unmarshalFail
      else Except.ok acc) "").map Url.mk
  | _ => .error .unmarshalFail

/-- `json.Unmarshal` of a JSON value into `[]Url`: `null` gives the nil
slice, an array unmarshals elementwise, anything else is a type error. -/
def unmarshalUrlList : Json → Except GoErr (List Url)
  | .null => .ok []
  | .arr elems => elems.mapM unmarshalUrl
  | _ => .error .unmarshalFail

/-- `json.Unmarshal` of a JSON value into a fresh `SkyhubResponse`:
members other than `"Images"` are ignored (Go silently skips unknown
fields), and a missing `"Images"` member leaves the zero value (nil). -/
def unmarshalSkyhubResponse : Json → Except GoErr SkyhubResponse
  | .null => .ok ⟨[]⟩
  | .obj fields =>
    (fields.foldlM (fun acc f =>
      if f.1 = "Images" then unmarshalUrlList f.2
      else Except.ok acc) []).map SkyhubResponse.mk
  | _ => .error .unmarshalFail

/-- Embedding of `consumeEndpoint` (skyhub_server.go:93-113). The argument
models the external effects: `.error e` is an `http.Get`/`ioutil.ReadAll`
failure, `.ok none` a body that is not valid JSON (so `json.Unmarshal`
returns a syntax error), `.ok (some j)` a body parsing to the value `j`. -/
def consumeEndpoint (resp : Except GoErr (Option Json)) : Except GoErr (List Url) :=
  match resp with
  | .error e => .error e
  | .ok none => .error .unmarshalFail
  | .ok (some j) => (unmarshalSkyhubResponse j).map SkyhubResponse.Images

/-- Modelled from the spec (§4.1, §6): the expected manifest shape,
a JSON body `Images: [ Url: string, ... ]` written as a generator from
the list of URL strings. Used to compare the code's lenient decoding
against the spec's expected shape. -/
def manifestJson (urls : List String) : Json :=
  .obj [("Images", .arr (urls.map (fun u => .obj [("Url", .str u)])))]

example : consumeEndpoint (.ok (some (.obj []))) = .ok [] := rfl
example : consumeEndpoint (.ok (some (manifestJson ["http://h/a.jpg"]))) = .ok [⟨"http://h/a.jpg"⟩] := rfl
example : consumeEndpoint (.ok (some (.obj [("Images", .str "x")]))) = .error .unmarshalFail := rfl
example : consumeEndpoint (.ok (some (.obj [("Images", .arr [.obj [("Url", .num 5)]])]))) = .error .unmarshalFail := rfl

/-! ### Images, sizes and the pipeline state -/

/-- `type ImageSize struct { width, height uint }` (skyhub_server.go:28). -/
structure ImageSize where
  width : Nat
  height : Nat
deriving DecidableEq, Repr

def smallSize : ImageSize := ⟨320, 240⟩
def mediumSize : ImageSize := ⟨384, 288⟩
def largeSize : ImageSize := ⟨640, 480⟩

/-- A decoded raster: its dimensions plus an opaque payload standing for
the pixel contents (enough to distinguish distinct source images). -/
structure Image where
  width : Nat
  height : Nat
  pix : Nat
deriving DecidableEq, Repr

/-- `type ImageInfo struct { img image.Image; name string }`. -/
structure ImageInfo where
  img : Image
  name : String
deriving DecidableEq, Repr

/-- `resizeImg` (skyhub_server.go:166-168): `resize.Resize(w, h, img, Bilinear)`
with nonzero target dimensions returns a raster of exactly the requested
dimensions whose contents are derived from the input raster. -/
def resizeImg (img : Image) (newsize : ImageSize) : Image :=
  ⟨newsize.width, newsize.height, img.pix⟩

/-- The configured storage folder (`filepathPrefix` in the source). -/
def filepathBase : String := "/home/edufgf/Desktop/B2W/skyhub/"

/-- The configured listen address (`ServerAddr` in the source). -/
def serverAddr : String := "localhost:7366"

/-- Association-list lookup by key (first match), the semantics of a file
path resolving on the file system and of a Mongo find on the name key. -/
def lookupA {α : Type} : List (String × α) → String → Option α
  | [], _ => none
  | p :: rest, k => if p.1 = k then some p.2 else lookupA rest k

/-- Association-list overwrite-or-append: replace the first entry with the
given key, or append a new entry. This is both `os.Create`-then-write at a
path (overwriting an existing file is not an error) and `mgo`'s
`Upsert` keyed by `Name` (replace the matching document, else insert). -/
def writeA {α : Type} : List (String × α) → String → α → List (String × α)
  | [], k, v => [(k, v)]
  | p :: rest, k, v => if p.1 = k then (k, v) :: rest else p :: writeA rest k v

/-- The mutable external world of one run: the local file system (path →
stored raster) and the Mongo collection (document name → document URL,
i.e. the `MongoDocument{Name, Url}` records keyed by `Name`). -/
structure PState where
  fs : List (String × Image)
  db : List (String × String)
deriving DecidableEq, Repr

/-- Failure oracles for the external writes: whether `saveImgToFile`
(`os.Create` or `jpeg.Encode`) fails for a given file path, and whether
`db.Upsert` fails for a given document name. -/
structure Oracles where
  saveFails : String → Bool
  upsertFails : String → Bool

/-- The all-successful external world. -/
def noFailOracle : Oracles := ⟨fun _ => false, fun _ => false⟩

/-- The URL stored in a document (skyhub_server.go:191):
`"http://" + ServerAddr + "/skyhub/" + name`. -/
def urlFor (name : String) : String :=
  "http://" ++ serverAddr ++ "/skyhub/" ++ name

/-- The stored-file name built in `resizeAndStoreToDB` (skyhub_server.go:185):
`imgInfo.name + "_" + strconv.Itoa(width) + "x" + strconv.Itoa(height) + ".jpg"`. -/
def storeName (imgName : String) (size : ImageSize) : String :=
  imgName ++ "_" ++ Nat.repr size.width ++ "x" ++ Nat.repr size.height ++ ".jpg"

example : storeName "b737_3" smallSize = "b737_3_320x240.jpg" := by decide

/-- Embedding of `resizeAndStoreToDB` (skyhub_server.go:181-202): resize,
build the name, save the file (on failure return the error at once, before
any index write), then upsert the `MongoDocument` keyed by its name. -/
def resizeAndStoreToDB (o : Oracles) (imgInfo : ImageInfo) (size : ImageSize) (st : PState) :
    Option GoErr × PState :=
  let img := resizeImg imgInfo.img size
  let name := storeName imgInfo.name size
  if o.saveFails (filepathBase ++ name) then
    (some .createFile, st)
  else
    let st1 : PState := ⟨writeA st.fs (filepathBase ++ name) img, st.db⟩
    if o.upsertFails name then
      (some .upsertFail, st1)
    else
      (none, ⟨st1.fs, writeA st1.db name (urlFor name)⟩)

/-- Embedding of `resizeAndStoreImgsToDB` (skyhub_server.go:206-219): for
each image in order, the three sizes small, medium, large; the first error
is returned immediately, abandoning the rest of the batch. -/
def resizeAndStoreImgsToDB (o : Oracles) : List ImageInfo → PState → Option GoErr × PState
  | [], st => (none, st)
  | imgInfo :: rest, st =>
    match resizeAndStoreToDB o imgInfo smallSize st with
    | (some e, st') => (some e, st')
    | (none, st') =>
      match resizeAndStoreToDB o imgInfo mediumSize st' with
      | (some e, st') => (some e, st')
      | (none, st') =>
        match resizeAndStoreToDB o imgInfo largeSize st' with
        | (some e, st') => (some e, st')
        | (none, st') => resizeAndStoreImgsToDB o rest st'

/-- Embedding of `getJpegImgs` (skyhub_server.go:141-162). `fetchDecode`
models `http.Get` followed by `jpeg.Decode` for one URL (both failure
modes collapse into the returned error). The loop fills the result slice
in input order and returns at the first failing URL; a `nameFromUrl`
panic crashes the program. -/
def getJpegImgs (fetchDecode : String → Except GoErr Image) :
    List Url → GoResult (List ImageInfo)
  | [] => .ok []
  | u :: rest =>
    match fetchDecode u.Url with
    | .error e => .err e
    | .ok img =>
      match nameFromUrl u.Url with
      | .panicked => .panicked
      | .err e => .err e
      | .ok name =>
        match getJpegImgs fetchDecode rest with
        | .ok infos => .ok (⟨img, name⟩ :: infos)
        | .err e => .err e
        | .panicked => .panicked

/-! ### Facts about lastIndexList -/

theorem lastIndexList_ge (s : List Char) (c : Char) : -1 ≤ lastIndexList s c := by
  induction s with
  | nil => simp [lastIndexList]
  | cons a rest ih =>
    simp only [lastIndexList]
    split
    · omega
    · split <;> omega

theorem lastIndexList_lt (s : List Char) (c : Char) : lastIndexList s c < (s.length : Int) := by
  induction s with
  | nil => simp [lastIndexList]
  | cons a rest ih =>
    simp only [lastIndexList, List.length_cons]
    split
    · push_cast
      omega
    · split <;> push_cast <;> omega

theorem lastIndexList_of_not_mem {s : List Char} {c : Char} (h : c ∉ s) :
    lastIndexList s c = -1 := by
  induction s with
  | nil => rfl
  | cons a rest ih =>
    simp only [List.mem_cons, not_or] at h
    simp only [lastIndexList, ih h.2]
    rw [if_neg (by omega), if_neg (fun hac => h.1 hac.symm)]

theorem lastIndexList_append (xs ys : List Char) (c : Char) :
    lastIndexList (xs ++ ys) c =
      if 0 ≤ lastIndexList ys c then (xs.length : Int) + lastIndexList ys c
      else lastIndexList xs c := by
  induction xs with
  | nil =>
    have := lastIndexList_ge ys c
    simp only [List.nil_append, lastIndexList, List.length_nil]
    split <;> omega
  | cons a xs ih =>
    have h1 := lastIndexList_ge ys c
    have h2 := lastIndexList_ge xs c
    simp only [List.cons_append, lastIndexList, List.append_eq, List.length_cons, ih]
    split_ifs <;> push_cast <;> omega

/-! ### Claim C1: behaviour of nameFromUrl when a separator is absent.
The source checks `leftIndex == -1` only after adding one to the result of
`strings.LastIndex`, so the check can never fire: a URL with no `/` (but
with a `.`) silently yields the prefix before the last dot instead of the
error the spec demands. -/

/-- C1: the code violates the claim. On the input `"foo.jpg"`, in which the
separator `/` is absent, `nameFromUrl` does not fail: it silently returns
the name `"foo"`. (Only a missing `.` is ever detected, second conjunct.) -/
theorem c1_missing_slash_is_silent :
    nameFromUrl "foo.jpg" = .ok "foo" ∧ nameFromUrl "foojpg" = .err .parseName := by
  exact ⟨by decide, by decide⟩

/-! ### Claim C9: the slice panics when the last `.` precedes the last `/` -/

/-- C9: for every URL that contains a `.` but whose last `.` occurs
strictly before its last `/`, `nameFromUrl` neither returns an error nor a
name: the slice `imgurl[leftIndex:rightIndex]` has
`rightIndex < leftIndex` and the program panics. -/
theorem c9_nameFromUrl_panics (s : String)
    (h1 : 0 ≤ lastIndexList s.data '.')
    (h2 : lastIndexList s.data '.' < lastIndexList s.data '/') :
    nameFromUrl s = .panicked := by
  simp only [nameFromUrl]
  rw [if_neg (by omega), if_neg (by omega)]

/-- C9 witness: the hypotheses hold and the conclusion follows at the
concrete URL `"http://host.com/noextension"`. -/
theorem c9_witness :
    0 ≤ lastIndexList "http://host.com/noextension".data '.' ∧
    lastIndexList "http://host.com/noextension".data '.' <
      lastIndexList "http://host.com/noextension".data '/' ∧
    nameFromUrl "http://host.com/noextension" = .panicked :=
  ⟨by decide, by decide, c9_nameFromUrl_panics _ (by decide) (by decide)⟩

/-! ### Claim C7: the derived name on well-formed URLs -/

/-- C7 counterexample: the claim quantifies over every URL containing a `/`
followed later by a `.`. The URL `"http://x.com/file"` contains the `/` at
index 5 followed by the `.` at index 8, yet `nameFromUrl` does not return
the (claimed) substring — it returns no name at all: the program panics,
because the *last* `.` precedes the *last* `/`. -/
theorem c7_counterexample :
    "http://x.com/file".data[5]? = some '/' ∧
    "http://x.com/file".data[8]? = some '.' ∧
    nameFromUrl "http://x.com/file" = .panicked := by
  exact ⟨by decide, by decide, by decide⟩

theorem goSlice_middle (xs n ys : List Char) :
    goSliceData (xs ++ (n ++ ys)) xs.length (xs.length + n.length) = n := by
  unfold goSliceData
  rw [← List.append_assoc]
  have h : xs.length + n.length = (xs ++ n).length + 0 := by simp
  rw [h, List.take_append, List.take_zero, List.append_nil, List.drop_left]

/-- C7 (amended): for every source URL of the form `a ++ "/" ++ n ++ "." ++ e`
in which the displayed `/` is the last `/` and the displayed `.` is the
last `.` (that is, the URL contains a `.` after its last `/`), the derived
logical name is exactly the segment `n` after that last `/` and before
that last `.`. -/
theorem c7_nameFromUrl_on_wellformed (a n e : String)
    (hn : '/' ∉ n.data) (he1 : '/' ∉ e.data) (he2 : '.' ∉ e.data) :
    nameFromUrl (a ++ "/" ++ n ++ "." ++ e) = .ok n := by
  have hdata : (a ++ "/" ++ n ++ "." ++ e).data
      = a.data ++ ('/' :: (n.data ++ ('.' :: e.data))) := by
    show (((a.data ++ ['/']) ++ n.data) ++ ['.']) ++ e.data = _
    simp [List.append_assoc]
  have hedot : lastIndexList ('.' :: e.data) '.' = 0 := by
    simp only [lastIndexList, lastIndexList_of_not_mem he2]
    decide
  have heslash : lastIndexList ('.' :: e.data) '/' = -1 := by
    simp only [lastIndexList, lastIndexList_of_not_mem he1]
    decide
  have hmidslash : lastIndexList (n.data ++ ('.' :: e.data)) '/' = -1 := by
    rw [lastIndexList_append, heslash, if_neg (by omega), lastIndexList_of_not_mem hn]
  have hmiddot : lastIndexList (n.data ++ ('.' :: e.data)) '.' = (n.data.length : Int) := by
    rw [lastIndexList_append, hedot, if_pos (by omega)]
    omega
  have hslash : lastIndexList (a ++ "/" ++ n ++ "." ++ e).data '/' = (a.data.length : Int) := by
    rw [hdata, lastIndexList_append]
    have h0 : lastIndexList ('/' :: (n.data ++ ('.' :: e.data))) '/' = 0 := by
      simp only [lastIndexList, hmidslash]
      decide
    rw [h0, if_pos (by omega)]
    omega
  have hdot : lastIndexList (a ++ "/" ++ n ++ "." ++ e).data '.'
      = (a.data.length : Int) + n.data.length + 1 := by
    rw [hdata, lastIndexList_append]
    have h0 : lastIndexList ('/' :: (n.data ++ ('.' :: e.data))) '.'
        = (n.data.length : Int) + 1 := by
      simp only [lastIndexList, hmiddot]
      rw [if_pos (by omega)]
    rw [h0, if_pos (by omega)]
    omega
  have hlen : ((a ++ "/" ++ n ++ "." ++ e).data.length : Int)
      = a.data.length + 1 + n.data.length + 1 + e.data.length := by
    rw [hdata]
    simp only [List.length_append, List.length_cons]
    push_cast
    omega
  simp only [nameFromUrl, hslash, hdot]
  rw [if_neg (by omega), if_pos (⟨by omega, by omega, by omega⟩ :
    (0:Int) ≤ (a.data.length : Int) + 1 ∧
    (a.data.length : Int) + 1 ≤ (a.data.length : Int) + n.data.length + 1 ∧
    (a.data.length : Int) + n.data.length + 1 ≤ ((a ++ "/" ++ n ++ "." ++ e).data.length : Int))]
  have hL : ((a.data.length : Int) + 1).toNat = (a.data ++ ['/']).length := by
    simp only [List.length_append, List.length_singleton]
    omega
  have hR : ((a.data.length : Int) + n.data.length + 1).toNat
      = (a.data ++ ['/']).length + n.data.length := by
    simp only [List.length_append, List.length_singleton]
    omega
  rw [hL, hR]
  have hdata2 : (a ++ "/" ++ n ++ "." ++ e).data
      = (a.data ++ ['/']) ++ (n.data ++ ('.' :: e.data)) := by
    rw [hdata]
    simp [List.append_assoc]
  rw [hdata2, goSlice_middle]

/-- C7 witness for the amended theorem: the specified example URL derives
the name `"b737_3"`. -/
theorem c7_witness :
    nameFromUrl ("http://host/images" ++ "/" ++ "b737_3" ++ "." ++ "jpg")
      = .ok "b737_3" :=
  c7_nameFromUrl_on_wellformed "http://host/images" "b737_3" "jpg"
    (by decide) (by decide) (by decide)

/-! ### Claim C10: getJpegImgs preserves order and drops nothing -/

/-- On success, `getJpegImgs` pairs each input URL, in order, with its
decoded image and derived name (shared helper). -/
theorem getJpegImgs_ok_forall₂ (fetchDecode : String → Except GoErr Image)
    (urls : List Url) (infos : List ImageInfo)
    (h : getJpegImgs fetchDecode urls = .ok infos) :
    List.Forall₂ (fun (u : Url) (info : ImageInfo) =>
      fetchDecode u.Url = .ok info.img ∧ nameFromUrl u.Url = .ok info.name) urls infos := by
  induction urls generalizing infos with
  | nil =>
    simp only [getJpegImgs, GoResult.ok.injEq] at h
    subst h
    exact .nil
  | cons u rest ih =>
    simp only [getJpegImgs] at h
    split at h
    · exact GoResult.noConfusion h
    · rename_i img hf
      split at h
      · exact GoResult.noConfusion h
      · exact GoResult.noConfusion h
      · rename_i name hn
        split at h
        · rename_i infos' hr
          cases h
          exact .cons ⟨hf, hn⟩ (ih _ hr)
        · exact GoResult.noConfusion h
        · exact GoResult.noConfusion h

/-- C10: whenever `getJpegImgs` succeeds on a list of URLs, it returns a
list of exactly the same length whose i-th element holds the image decoded
from the i-th URL and the name derived from that same URL: input order is
preserved and no entry is dropped or duplicated. -/
theorem c10_getJpegImgs_ordered (fetchDecode : String → Except GoErr Image)
    (urls : List Url) (infos : List ImageInfo)
    (h : getJpegImgs fetchDecode urls = .ok infos) :
    infos.length = urls.length ∧
    ∀ i (h1 : i < urls.length) (h2 : i < infos.length),
      fetchDecode (urls.get ⟨i, h1⟩).Url = .ok (infos.get ⟨i, h2⟩).img ∧
      nameFromUrl (urls.get ⟨i, h1⟩).Url = .ok (infos.get ⟨i, h2⟩).name := by
  have hf := getJpegImgs_ok_forall₂ fetchDecode urls infos h
  rw [List.forall₂_iff_get] at hf
  exact ⟨hf.1.symm, hf.2⟩

/-- A deterministic download/decode oracle for concrete scenarios. -/
def demoFetch : String → Except GoErr Image :=
  fun u => if u = "http://h/a.jpg" then .ok ⟨800, 600, 1⟩ else .ok ⟨1024, 768, 2⟩

/-- C10 witness: the hypothesis holds at a concrete two-URL input and the
conclusion instantiates at index 0. -/
theorem c10_witness :
    ([⟨⟨800, 600, 1⟩, "a"⟩, ⟨⟨1024, 768, 2⟩, "b"⟩] : List ImageInfo).length
      = ([⟨"http://h/a.jpg"⟩, ⟨"http://h/b.jpg"⟩] : List Url).length ∧
    demoFetch "http://h/a.jpg" = .ok ⟨800, 600, 1⟩ ∧
    nameFromUrl "http://h/a.jpg" = .ok "a" := by
  have h := c10_getJpegImgs_ordered demoFetch
    [⟨"http://h/a.jpg"⟩, ⟨"http://h/b.jpg"⟩]
    [⟨⟨800, 600, 1⟩, "a"⟩, ⟨⟨1024, 768, 2⟩, "b"⟩] (by decide)
  exact ⟨h.1, (h.2 0 (by decide) (by decide)).1, (h.2 0 (by decide) (by decide)).2⟩

/-! ### Claim C2: one failure aborts the whole batch (halt-on-first-error) -/

/-- External world for the C2 scenario: of two URLs, exactly the first
fails (to decode); everything else succeeds. -/
def c2Fetch : String → Except GoErr Image :=
  fun u => if u = "http://h/bad.jpg" then .error .decodeFail else .ok ⟨800, 600, 7⟩

/-- External world in which exactly one (reference,size) store fails: the
save of the small variant of image "a". -/
def c2Oracles : Oracles :=
  ⟨fun p => p == filepathBase ++ "a_320x240.jpg", fun _ => false⟩

/-- C2: the code violates the claim (the spec, section 7/9, calls this
halt-on-first-error behaviour a defect of the original). With N = 2
references of which exactly the first fails to decode, `getJpegImgs`
aborts the whole batch with that error, so no reference at all is
processed downstream - not 3(N-1) = 3 index records plus one recorded
failure. Likewise a single failing (reference,size) store aborts
`resizeAndStoreImgsToDB`: the run stops at the first size of the first
image with the error and an empty database, never reaching the sibling
sizes or the second image. -/
theorem c2_first_error_aborts_batch :
    getJpegImgs c2Fetch [⟨"http://h/bad.jpg"⟩, ⟨"http://h/good.jpg"⟩] = .err .decodeFail ∧
    resizeAndStoreImgsToDB c2Oracles
      [⟨⟨800, 600, 7⟩, "a"⟩, ⟨⟨800, 600, 7⟩, "b"⟩] ⟨[], []⟩
      = (some .createFile, ⟨[], []⟩) := by
  exact ⟨by decide, by decide⟩

/-! ### Claim C5: consumeEndpoint error behaviour -/

/-- C5 counterexample: a body that is valid JSON but does not match the
expected shape (the empty JSON object - it has no Images member) is not
rejected: `consumeEndpoint` succeeds and returns the empty sequence,
because Go's `json.Unmarshal` silently ignores missing fields. -/
theorem c5_counterexample :
    consumeEndpoint (.ok (some (.obj []))) = .ok [] := rfl

theorem mapM_unmarshalUrl (urls : List String) :
    (urls.map (fun u => Json.obj [("Url", Json.str u)])).mapM unmarshalUrl
      = Except.ok (urls.map Url.mk) := by
  induction urls with
  | nil => rfl
  | cons u rest ih =>
    rw [List.map_cons, List.map_cons, List.mapM_cons,
      show unmarshalUrl (Json.obj [("Url", Json.str u)]) = Except.ok ⟨u⟩ from rfl, ih]
    rfl

/-- C5 (amended): `consumeEndpoint` fails whenever retrieval fails at the
network level and whenever the body is not valid JSON, and a body of the
expected manifest shape yields exactly its image references; but a valid
JSON body that does not match the expected shape is rejected only when a
present `Images` member has the wrong type (last conjunct) - a body with
no `Images` member at all decodes leniently to the empty sequence (see
the counterexample). -/
theorem c5_consumeEndpoint_spec :
    (∀ e : GoErr, consumeEndpoint (.error e) = .error e) ∧
    consumeEndpoint (.ok none) = .error .unmarshalFail ∧
    (∀ urls : List String,
      consumeEndpoint (.ok (some (manifestJson urls))) = .ok (urls.map Url.mk)) ∧
    consumeEndpoint (.ok (some (.obj [("Images", .str "nope")]))) = .error .unmarshalFail := by
  refine ⟨fun e => rfl, rfl, fun urls => ?_, rfl⟩
  simp only [consumeEndpoint, manifestJson, unmarshalSkyhubResponse, List.foldlM_cons,
    List.foldlM_nil, if_pos rfl, unmarshalUrlList, mapM_unmarshalUrl]
  rfl

/-! ### Claim C8: stored-record name construction -/

/-- C8: the record a successful `resizeAndStoreToDB` writes to the index
is keyed by `logicalName + "_" + width + "x" + height + ".jpg"` exactly as
the source builds it, and for logicalName "b737_3" with the 320x240 size
that key is "b737_3_320x240.jpg". -/
theorem c8_storeName_construction :
    (∀ (nm : String) (w h : Nat) (img : Image) (st : PState),
      (resizeAndStoreToDB noFailOracle ⟨img, nm⟩ ⟨w, h⟩ st).2.db
        = writeA st.db (nm ++ "_" ++ Nat.repr w ++ "x" ++ Nat.repr h ++ ".jpg")
            (urlFor (nm ++ "_" ++ Nat.repr w ++ "x" ++ Nat.repr h ++ ".jpg"))) ∧
    storeName "b737_3" ⟨320, 240⟩ = "b737_3_320x240.jpg" := by
  exact ⟨fun nm w h img st => rfl, by decide⟩

/-! ### Claim C3: store-before-index -/

/-- The pipeline invariant: every index record references a file that is
present on the file system (its address resolves to a written object). -/
def goodState (st : PState) : Prop :=
  ∀ p ∈ st.db, (filepathBase ++ p.1) ∈ st.fs.map Prod.fst

theorem mem_keys_writeA_self {α : Type} (l : List (String × α)) (k : String) (v : α) :
    k ∈ (writeA l k v).map Prod.fst := by
  induction l with
  | nil => simp [writeA]
  | cons p rest ih =>
    simp only [writeA]
    split
    · simp
    · simp only [List.map_cons, List.mem_cons]
      exact Or.inr ih

theorem mem_keys_writeA_of {α : Type} {l : List (String × α)} {k' : String} (k : String) (v : α)
    (h : k' ∈ l.map Prod.fst) : k' ∈ (writeA l k v).map Prod.fst := by
  induction l with
  | nil => simp at h
  | cons p rest ih =>
    simp only [List.map_cons, List.mem_cons] at h
    simp only [writeA]
    split
    · rename_i hpk
      rcases h with h | h
      · simp [h, hpk]
      · simp only [List.map_cons, List.mem_cons]
        exact Or.inr h
    · rcases h with h | h
      · simp [h]
      · simp only [List.map_cons, List.mem_cons]
        exact Or.inr (ih h)

theorem mem_writeA_elim {α : Type} {l : List (String × α)} {k : String} {v : α} {p : String × α}
    (h : p ∈ writeA l k v) : p ∈ l ∨ p = (k, v) := by
  induction l with
  | nil =>
    simp only [writeA] at h
    rcases List.mem_singleton.1 h with h
    exact Or.inr h
  | cons q rest ih =>
    simp only [writeA] at h
    split at h
    · rcases List.mem_cons.1 h with h | h
      · exact Or.inr h
      · exact Or.inl (List.mem_cons_of_mem _ h)
    · rcases List.mem_cons.1 h with h | h
      · exact Or.inl (by simp [h])
      · rcases ih h with h | h
        · exact Or.inl (List.mem_cons_of_mem _ h)
        · exact Or.inr h

theorem goodState_step (o : Oracles) (imgInfo : ImageInfo) (size : ImageSize) (st : PState)
    (hst : goodState st) : goodState (resizeAndStoreToDB o imgInfo size st).2 := by
  by_cases h1 : o.saveFails (filepathBase ++ storeName imgInfo.name size)
  · simpa only [resizeAndStoreToDB, h1, if_true] using hst
  · simp only [resizeAndStoreToDB, h1, Bool.false_eq_true, if_false]
    by_cases h2 : o.upsertFails (storeName imgInfo.name size)
    · simp only [h2, if_true]
      intro p hp
      exact mem_keys_writeA_of _ _ (hst p hp)
    · simp only [h2, Bool.false_eq_true, if_false]
      intro p hp
      rcases mem_writeA_elim hp with h | h
      · exact mem_keys_writeA_of _ _ (hst p h)
      · rw [h]
        exact mem_keys_writeA_self _ _ _

theorem goodState_run (o : Oracles) (images : List ImageInfo) (st : PState)
    (hst : goodState st) : goodState (resizeAndStoreImgsToDB o images st).2 := by
  induction images generalizing st with
  | nil => exact hst
  | cons x rest ih =>
    simp only [resizeAndStoreImgsToDB]
    have g1 := goodState_step o x smallSize st hst
    split
    · rename_i e1 st1 hs1
      rw [hs1] at g1
      exact g1
    · rename_i st1 hs1
      rw [hs1] at g1
      have g2 := goodState_step o x mediumSize st1 g1
      split
      · rename_i e2 st2 hs2
        rw [hs2] at g2
        exact g2
      · rename_i st2 hs2
        rw [hs2] at g2
        have g3 := goodState_step o x largeSize st2 g2
        split
        · rename_i e3 st3 hs3
          rw [hs3] at g3
          exact g3
        · rename_i st3 hs3
          rw [hs3] at g3
          exact ih st3 g3

/-- C3: within one (reference,size) chain the store precedes the index
upsert - if the store fails, the chain stops with that error and no index
record is written for that name (first conjunct) - and consequently a run
of the whole pipeline preserves the invariant that the index never
contains a record whose address does not resolve to a written object
(second conjunct, for every oracle, i.e. under arbitrary store/upsert
failures). -/
theorem c3_store_before_upsert :
    (∀ (o : Oracles) (imgInfo : ImageInfo) (size : ImageSize) (st : PState),
      o.saveFails (filepathBase ++ storeName imgInfo.name size) = true →
        (resizeAndStoreToDB o imgInfo size st).1 = some .createFile ∧
        (resizeAndStoreToDB o imgInfo size st).2.db = st.db) ∧
    (∀ (o : Oracles) (images : List ImageInfo) (st : PState),
      goodState st → goodState (resizeAndStoreImgsToDB o images st).2) := by
  constructor
  · intro o imgInfo size st h
    simp [resizeAndStoreToDB, h]
  · intro o images st hst
    exact goodState_run o images st hst

/-- External world in which every file save fails. -/
def c3Oracles : Oracles := ⟨fun _ => true, fun _ => false⟩

/-- C3 witness: both conjuncts applied at concrete inputs. -/
theorem c3_witness :
    ((resizeAndStoreToDB c3Oracles ⟨⟨800, 600, 3⟩, "w"⟩ smallSize ⟨[], []⟩).1
        = some .createFile ∧
      (resizeAndStoreToDB c3Oracles ⟨⟨800, 600, 3⟩, "w"⟩ smallSize ⟨[], []⟩).2.db
        = ([] : List (String × String))) ∧
    goodState (resizeAndStoreImgsToDB noFailOracle [⟨⟨800, 600, 3⟩, "w"⟩] ⟨[], []⟩).2 :=
  ⟨c3_store_before_upsert.1 c3Oracles ⟨⟨800, 600, 3⟩, "w"⟩ smallSize ⟨[], []⟩ rfl,
   c3_store_before_upsert.2 noFailOracle [⟨⟨800, 600, 3⟩, "w"⟩] ⟨[], []⟩
     (fun p hp => absurd hp (List.not_mem_nil p))⟩

/-! ### Write sequences over association stores.
A fully successful run is a fixed sequence of keyed overwrites of the file
system and of the index; these lemmas characterise such sequences. -/

/-- Apply a sequence of keyed writes in order. -/
def applyW {α : Type} (l : List (String × α)) : List (String × α) → List (String × α)
  | [] => l
  | w :: rest => applyW (writeA l w.1 w.2) rest

/-- The last value a write sequence assigns to a key, if any. -/
def lastVal {α : Type} : List (String × α) → String → Option α
  | [], _ => none
  | w :: rest, k =>
    match lastVal rest k with
    | some v => some v
    | none => if w.1 = k then some w.2 else none

theorem lookupA_writeA_self {α : Type} (l : List (String × α)) (k : String) (v : α) :
    lookupA (writeA l k v) k = some v := by
  induction l with
  | nil => simp [writeA, lookupA]
  | cons p rest ih =>
    simp only [writeA]
    split
    · simp [lookupA]
    · rename_i h
      simp only [lookupA, if_neg h, ih]

theorem lookupA_writeA_ne {α : Type} (l : List (String × α)) (k k' : String) (v : α)
    (h : k' ≠ k) : lookupA (writeA l k v) k' = lookupA l k' := by
  induction l with
  | nil =>
    simp only [writeA, lookupA]
    rw [if_neg (fun hh => h hh.symm)]
  | cons p rest ih =>
    simp only [writeA]
    split
    · rename_i hpk
      simp only [lookupA]
      rw [if_neg (fun hh => h hh.symm), if_neg (fun hh => h (hpk ▸ hh).symm)]
    · simp only [lookupA, ih]

theorem lookupA_eq_none_of_not_mem {α : Type} {l : List (String × α)} {k : String}
    (h : k ∉ l.map Prod.fst) : lookupA l k = none := by
  induction l with
  | nil => rfl
  | cons p rest ih =>
    simp only [List.map_cons, List.mem_cons, not_or] at h
    simp only [lookupA]
    rw [if_neg (fun hh : p.1 = k => h.1 hh.symm)]
    exact ih h.2

theorem keys_writeA_sub {α : Type} {l : List (String × α)} {k k' : String} {v : α}
    (h : k' ∈ (writeA l k v).map Prod.fst) : k' ∈ l.map Prod.fst ∨ k' = k := by
  rcases List.mem_map.1 h with ⟨p, hp, hpk⟩
  rcases mem_writeA_elim hp with h1 | h1
  · exact Or.inl (hpk ▸ List.mem_map_of_mem Prod.fst h1)
  · right
    rw [← hpk, h1]

theorem keys_writeA_of_mem {α : Type} {l : List (String × α)} {k : String} (v : α)
    (h : k ∈ l.map Prod.fst) : (writeA l k v).map Prod.fst = l.map Prod.fst := by
  induction l with
  | nil => simp at h
  | cons p rest ih =>
    simp only [writeA]
    split
    · rename_i hpk
      simp [hpk]
    · rename_i hpk
      simp only [List.map_cons, List.mem_cons] at h
      rcases h with h | h
      · exact absurd h.symm hpk
      · simp only [List.map_cons, ih h]

theorem nodup_keys_writeA {α : Type} {l : List (String × α)} (k : String) (v : α)
    (h : (l.map Prod.fst).Nodup) : ((writeA l k v).map Prod.fst).Nodup := by
  induction l with
  | nil => simp [writeA]
  | cons p rest ih =>
    simp only [List.map_cons, List.nodup_cons] at h
    simp only [writeA]
    split
    · rename_i hpk
      simp only [List.map_cons, List.nodup_cons]
      exact ⟨hpk ▸ h.1, h.2⟩
    · rename_i hpk
      simp only [List.map_cons, List.nodup_cons]
      refine ⟨fun hmem => ?_, ih h.2⟩
      rcases keys_writeA_sub hmem with h1 | h1
      · exact h.1 h1
      · exact hpk h1

theorem keys_applyW_mono {α : Type} (w : List (String × α)) {l : List (String × α)}
    {k' : String} (h : k' ∈ l.map Prod.fst) : k' ∈ (applyW l w).map Prod.fst := by
  induction w generalizing l with
  | nil => exact h
  | cons p rest ih => exact ih (mem_keys_writeA_of _ _ h)

theorem keys_applyW_new {α : Type} {w : List (String × α)} {k' : String}
    (l : List (String × α)) (h : k' ∈ w.map Prod.fst) :
    k' ∈ (applyW l w).map Prod.fst := by
  induction w generalizing l with
  | nil => simp at h
  | cons p rest ih =>
    simp only [List.map_cons, List.mem_cons] at h
    rcases h with h | h
    · exact h ▸ keys_applyW_mono rest (mem_keys_writeA_self _ _ _)
    · exact ih _ h

theorem keys_applyW_of_sub {α : Type} {w l : List (String × α)}
    (h : ∀ k' ∈ w.map Prod.fst, k' ∈ l.map Prod.fst) :
    (applyW l w).map Prod.fst = l.map Prod.fst := by
  induction w generalizing l with
  | nil => rfl
  | cons p rest ih =>
    simp only [List.map_cons, List.mem_cons] at h
    have hp : p.1 ∈ l.map Prod.fst := h p.1 (Or.inl rfl)
    have hw : (writeA l p.1 p.2).map Prod.fst = l.map Prod.fst := keys_writeA_of_mem _ hp
    simp only [applyW]
    rw [ih (fun k' hk' => hw ▸ h k' (Or.inr hk')), hw]

theorem nodup_keys_applyW {α : Type} (w : List (String × α)) {l : List (String × α)}
    (h : (l.map Prod.fst).Nodup) : ((applyW l w).map Prod.fst).Nodup := by
  induction w generalizing l with
  | nil => exact h
  | cons p rest ih => exact ih (nodup_keys_writeA _ _ h)

theorem lookupA_applyW {α : Type} (w : List (String × α)) (l : List (String × α)) (k : String) :
    lookupA (applyW l w) k =
      match lastVal w k with
      | some v => some v
      | none => lookupA l k := by
  induction w generalizing l with
  | nil => rfl
  | cons p rest ih =>
    simp only [applyW, lastVal, ih]
    cases lastVal rest k with
    | some v => rfl
    | none =>
      by_cases hk : p.1 = k
      · subst hk
        simp [lookupA_writeA_self]
      · rw [if_neg hk]
        exact lookupA_writeA_ne _ _ _ _ (fun hh => hk hh.symm)

theorem eq_of_keys_lookup {α : Type} :
    ∀ (l1 l2 : List (String × α)),
      l1.map Prod.fst = l2.map Prod.fst →
      (l1.map Prod.fst).Nodup →
      (∀ k, lookupA l1 k = lookupA l2 k) → l1 = l2
  | [], [], _, _, _ => rfl
  | [], q :: l2, hk, _, _ => by simp at hk
  | p :: l1, [], hk, _, _ => by simp at hk
  | p :: l1, q :: l2, hk, hnd, hl => by
    simp only [List.map_cons, List.cons.injEq] at hk
    simp only [List.map_cons, List.nodup_cons] at hnd
    have hv : p.2 = q.2 := by
      have h := hl p.1
      simp only [lookupA, if_pos rfl] at h
      rw [if_pos hk.1.symm] at h
      exact Option.some.injEq _ _ ▸ h
    have htail : l1 = l2 := by
      refine eq_of_keys_lookup l1 l2 hk.2 hnd.2 (fun k => ?_)
      by_cases hkp : k = p.1
      · subst hkp
        rw [lookupA_eq_none_of_not_mem hnd.1, lookupA_eq_none_of_not_mem (hk.2 ▸ hnd.1)]
      · have h := hl k
        simp only [lookupA] at h
        rw [if_neg (fun hh => hkp hh.symm), if_neg (fun hh => hkp (hk.1 ▸ hh).symm)] at h
        exact h
    rcases p with ⟨pk, pv⟩
    rcases q with ⟨qk, qv⟩
    simp only at hk hv
    rw [hk.1, hv, htail]

theorem applyW_idem {α : Type} (l w : List (String × α))
    (hnd : (l.map Prod.fst).Nodup) :
    applyW (applyW l w) w = applyW l w := by
  have hkeys : (applyW (applyW l w) w).map Prod.fst = (applyW l w).map Prod.fst :=
    keys_applyW_of_sub (fun k' hk' => keys_applyW_new l hk')
  refine eq_of_keys_lookup _ _ hkeys (nodup_keys_applyW w (nodup_keys_applyW w hnd))
    (fun k => ?_)
  rw [lookupA_applyW, lookupA_applyW]
  cases lastVal w k with
  | some v => rfl
  | none => rfl

theorem writeA_of_not_mem {α : Type} {l : List (String × α)} {k : String} (v : α)
    (h : k ∉ l.map Prod.fst) : writeA l k v = l ++ [(k, v)] := by
  induction l with
  | nil => rfl
  | cons p rest ih =>
    simp only [List.map_cons, List.mem_cons, not_or] at h
    simp only [writeA, List.cons_append]
    rw [if_neg (fun hh : p.1 = k => h.1 hh.symm), ih h.2]

theorem applyW_of_fresh {α : Type} {w : List (String × α)} :
    ∀ {l : List (String × α)}, (w.map Prod.fst).Nodup →
      (∀ k ∈ w.map Prod.fst, k ∉ l.map Prod.fst) → applyW l w = l ++ w := by
  induction w with
  | nil => intro l _ _; simp [applyW]
  | cons p rest ih =>
    intro l hnd hfresh
    simp only [List.map_cons, List.nodup_cons] at hnd
    have hp : p.1 ∉ l.map Prod.fst := hfresh p.1 (by simp)
    simp only [applyW]
    rw [writeA_of_not_mem _ hp, ih hnd.2 ?fresh]
    · simp
    case fresh =>
      intro k hk
      simp only [List.map_append, List.mem_append, not_or]
      refine ⟨hfresh k (by simp [hk]), ?_⟩
      simp only [List.map_cons, List.map_nil, List.mem_singleton]
      intro hkp
      exact hnd.1 (hkp ▸ hk)

/-! ### Characterisation of a fully successful run -/

/-- The file-system writes a fully successful run performs, in order. -/
def fsWrites (images : List ImageInfo) : List (String × Image) :=
  images.flatMap (fun x =>
    [(filepathBase ++ storeName x.name smallSize, resizeImg x.img smallSize),
     (filepathBase ++ storeName x.name mediumSize, resizeImg x.img mediumSize),
     (filepathBase ++ storeName x.name largeSize, resizeImg x.img largeSize)])

/-- The index upserts a fully successful run performs, in order. -/
def dbWrites (images : List ImageInfo) : List (String × String) :=
  images.flatMap (fun x =>
    [(storeName x.name smallSize, urlFor (storeName x.name smallSize)),
     (storeName x.name mediumSize, urlFor (storeName x.name mediumSize)),
     (storeName x.name largeSize, urlFor (storeName x.name largeSize))])

/-- All the external writes of the given batch succeed. -/
def runOk (o : Oracles) (images : List ImageInfo) : Prop :=
  ∀ x ∈ images, ∀ s ∈ [smallSize, mediumSize, largeSize],
    o.saveFails (filepathBase ++ storeName x.name s) = false ∧
    o.upsertFails (storeName x.name s) = false

theorem step_of_ok {o : Oracles} {x : ImageInfo} {s : ImageSize}
    (h1 : o.saveFails (filepathBase ++ storeName x.name s) = false)
    (h2 : o.upsertFails (storeName x.name s) = false) (st : PState) :
    resizeAndStoreToDB o x s st
      = (none, ⟨writeA st.fs (filepathBase ++ storeName x.name s) (resizeImg x.img s),
                writeA st.db (storeName x.name s) (urlFor (storeName x.name s))⟩) := by
  simp [resizeAndStoreToDB, h1, h2]

theorem step_ok {o : Oracles} {x : ImageInfo} {s : ImageSize} {st st' : PState}
    (h : resizeAndStoreToDB o x s st = (none, st')) :
    o.saveFails (filepathBase ++ storeName x.name s) = false ∧
    o.upsertFails (storeName x.name s) = false := by
  by_cases h1 : o.saveFails (filepathBase ++ storeName x.name s)
  · exfalso
    simp [resizeAndStoreToDB, h1] at h
  · by_cases h2 : o.upsertFails (storeName x.name s)
    · exfalso
      simp [resizeAndStoreToDB, h1, h2] at h
    · exact ⟨by simpa using h1, by simpa using h2⟩

theorem applyW_append {α : Type} (w1 w2 : List (String × α)) :
    ∀ l : List (String × α), applyW l (w1 ++ w2) = applyW (applyW l w1) w2 := by
  induction w1 with
  | nil => intro l; rfl
  | cons p rest ih => intro l; exact ih (writeA l p.1 p.2)

theorem run_of_runOk (o : Oracles) (images : List ImageInfo) :
    ∀ st : PState, runOk o images →
      resizeAndStoreImgsToDB o images st
        = (none, ⟨applyW st.fs (fsWrites images), applyW st.db (dbWrites images)⟩) := by
  induction images with
  | nil => intro st _; rfl
  | cons x rest ih =>
    intro st h
    have hx := h x (List.mem_cons_self x rest)
    have hs := hx smallSize (by simp)
    have hm := hx mediumSize (by simp)
    have hl := hx largeSize (by simp)
    have hrest : runOk o rest := fun y hy => h y (List.mem_cons_of_mem _ hy)
    simp only [resizeAndStoreImgsToDB, step_of_ok hs.1 hs.2, step_of_ok hm.1 hm.2,
      step_of_ok hl.1 hl.2, ih _ hrest, fsWrites, dbWrites, List.flatMap_cons,
      applyW_append, applyW]
    rfl

theorem run_ok (o : Oracles) (images : List ImageInfo) :
    ∀ st st' : PState,
      resizeAndStoreImgsToDB o images st = (none, st') → runOk o images := by
  induction images with
  | nil =>
    intro st st' _ x hx
    simp at hx
  | cons x rest ih =>
    intro st st' h
    simp only [resizeAndStoreImgsToDB] at h
    split at h
    · rename_i e1 st1 hs1
      simp at h
    · rename_i st1 hs1
      split at h
      · rename_i e2 st2 hs2
        simp at h
      · rename_i st2 hs2
        split at h
        · rename_i e3 st3 hs3
          simp at h
        · rename_i st3 hs3
          have q1 := step_ok hs1
          have q2 := step_ok hs2
          have q3 := step_ok hs3
          intro y hy
          rcases List.mem_cons.1 hy with hy | hy
          · subst hy
            intro s hsz
            fin_cases hsz
            · exact q1
            · exact q2
            · exact q3
          · exact ih st3 st' h y hy

/-! ### Claim C4: idempotence of a repeated run -/

/-- C4: running the pipeline twice on an identical manifest is idempotent
with respect to the index. If the batch decoded from a manifest runs
successfully from an initial state whose file system and index are
duplicate-free keyed stores, then running the identical batch again from
the resulting state succeeds and reproduces that state exactly: the same
set of name keys, each key's address unchanged, no new rows, and (second
conjunct) no duplicate records for the same name. -/
theorem c4_pipeline_idempotent (o : Oracles) (fetchDecode : String → Except GoErr Image)
    (urls : List Url) (images : List ImageInfo) (st0 st1 : PState)
    (hman : getJpegImgs fetchDecode urls = .ok images)
    (hfs : (st0.fs.map Prod.fst).Nodup) (hdb : (st0.db.map Prod.fst).Nodup)
    (h : resizeAndStoreImgsToDB o images st0 = (none, st1)) :
    resizeAndStoreImgsToDB o images st1 = (none, st1) ∧
    (st1.db.map Prod.fst).Nodup := by
  have hOk := run_ok o images st0 st1 h
  have h1 := run_of_runOk o images st0 hOk
  rw [h] at h1
  have hst1 : st1 = ⟨applyW st0.fs (fsWrites images), applyW st0.db (dbWrites images)⟩ := by
    have h2 := congrArg Prod.snd h1
    simpa using h2
  have hfs1 : st1.fs = applyW st0.fs (fsWrites images) := by rw [hst1]
  have hdb1 : st1.db = applyW st0.db (dbWrites images) := by rw [hst1]
  have h2 := run_of_runOk o images st1 hOk
  constructor
  · rw [h2, hfs1, hdb1, applyW_idem _ _ hfs, applyW_idem _ _ hdb, ← hfs1, ← hdb1]
  · rw [hdb1]
    exact nodup_keys_applyW _ hdb

/-- C4 witness: a concrete one-image batch (decoded from a one-URL
manifest) run from the empty state; running it again from the produced
state reproduces that state, and the produced index has no duplicate
keys. -/
theorem c4_witness :
    resizeAndStoreImgsToDB noFailOracle [⟨⟨800, 600, 1⟩, "a"⟩]
        (resizeAndStoreImgsToDB noFailOracle [⟨⟨800, 600, 1⟩, "a"⟩] ⟨[], []⟩).2
      = (none, (resizeAndStoreImgsToDB noFailOracle [⟨⟨800, 600, 1⟩, "a"⟩] ⟨[], []⟩).2) ∧
    (((resizeAndStoreImgsToDB noFailOracle [⟨⟨800, 600, 1⟩, "a"⟩] ⟨[], []⟩).2.db.map
        Prod.fst).Nodup) :=
  c4_pipeline_idempotent noFailOracle demoFetch [⟨"http://h/a.jpg"⟩] [⟨⟨800, 600, 1⟩, "a"⟩]
    ⟨[], []⟩ (resizeAndStoreImgsToDB noFailOracle [⟨⟨800, 600, 1⟩, "a"⟩] ⟨[], []⟩).2
    (by decide) (by decide) (by decide) (by decide)

/-! ### Claim C6: fan-out count of a fully successful run -/

/-- The size-dependent part of a stored name. -/
def sizeSuffix (s : ImageSize) : String :=
  "_" ++ Nat.repr s.width ++ "x" ++ Nat.repr s.height ++ ".jpg"

theorem storeName_eq_append (nm : String) (s : ImageSize) :
    storeName nm s = nm ++ sizeSuffix s := by
  simp only [storeName, sizeSuffix, String.append_assoc]

theorem string_append_inj {s1 s2 t1 t2 : String} (h : s1 ++ t1 = s2 ++ t2)
    (hl : t1.length = t2.length) : s1 = s2 ∧ t1 = t2 := by
  have hd : s1.data ++ t1.data = s2.data ++ t2.data := congrArg String.data h
  have h2 := List.append_inj' hd hl
  exact ⟨String.ext h2.1, String.ext h2.2⟩

theorem storeName_inj3 {n1 n2 : String} {s1 s2 : ImageSize}
    (hs1 : s1 ∈ [smallSize, mediumSize, largeSize])
    (hs2 : s2 ∈ [smallSize, mediumSize, largeSize])
    (h : storeName n1 s1 = storeName n2 s2) : n1 = n2 ∧ s1 = s2 := by
  rw [storeName_eq_append, storeName_eq_append] at h
  fin_cases hs1 <;> fin_cases hs2 <;>
    first
      | exact ⟨(string_append_inj h (by decide)).1, rfl⟩
      | exact absurd (string_append_inj h (by decide)).2 (by decide)

theorem mem_names3 {nm a : String}
    (h : a ∈ [storeName nm smallSize, storeName nm mediumSize, storeName nm largeSize]) :
    ∃ s ∈ [smallSize, mediumSize, largeSize], a = storeName nm s := by
  simp only [List.mem_cons, List.not_mem_nil, or_false] at h
  rcases h with h | h | h
  · exact ⟨smallSize, by simp, h⟩
  · exact ⟨mediumSize, by simp, h⟩
  · exact ⟨largeSize, by simp, h⟩

theorem names3_nodup (nm : String) :
    [storeName nm smallSize, storeName nm mediumSize, storeName nm largeSize].Nodup := by
  have h12 : storeName nm smallSize ≠ storeName nm mediumSize := fun h =>
    absurd (storeName_inj3 (by simp) (by simp) h).2 (by decide)
  have h13 : storeName nm smallSize ≠ storeName nm largeSize := fun h =>
    absurd (storeName_inj3 (by simp) (by simp) h).2 (by decide)
  have h23 : storeName nm mediumSize ≠ storeName nm largeSize := fun h =>
    absurd (storeName_inj3 (by simp) (by simp) h).2 (by decide)
  simp [List.nodup_cons, h12, h13, h23]

theorem dbKeys_eq (images : List ImageInfo) :
    (dbWrites images).map Prod.fst = images.flatMap (fun x =>
      [storeName x.name smallSize, storeName x.name mediumSize, storeName x.name largeSize]) := by
  rw [dbWrites, List.map_flatMap]
  simp only [List.map_cons, List.map_nil]

theorem nodup_dbKeys (images : List ImageInfo)
    (hnd : (images.map ImageInfo.name).Nodup) :
    ((dbWrites images).map Prod.fst).Nodup := by
  rw [dbKeys_eq]
  induction images with
  | nil => simp
  | cons x rest ih =>
    simp only [List.map_cons, List.nodup_cons] at hnd
    rw [List.flatMap_cons, List.nodup_append]
    refine ⟨names3_nodup x.name, ih hnd.2, fun a ha hb => ?_⟩
    rcases mem_names3 ha with ⟨s, hs, rfl⟩
    rcases List.mem_flatMap.1 hb with ⟨y, hy, hay⟩
    rcases mem_names3 hay with ⟨s', hs', heq⟩
    have hname := (storeName_inj3 hs hs' heq).1
    exact hnd.1 (hname ▸ List.mem_map_of_mem ImageInfo.name hy)

theorem length_dbWrites (images : List ImageInfo) :
    (dbWrites images).length = 3 * images.length := by
  induction images with
  | nil => rfl
  | cons x rest ih =>
    simp only [dbWrites, List.flatMap_cons, List.length_append, List.length_cons,
      List.length_nil, List.length_cons] at ih ⊢
    omega

/-- C6 (amended): for every manifest of N references that all succeed
*and whose derived logical names are pairwise distinct*, a run starting
from an empty index succeeds and produces exactly one record per
(reference, SizeSpec) pair - the db is literally the per-reference,
per-size write list - so exactly 3N records, with the three fixed
SizeSpecs Small 320x240, Medium 384x288, Large 640x480. -/
theorem c6_fanout (fetchDecode : String → Except GoErr Image) (urls : List Url)
    (images : List ImageInfo) (fs0 : List (String × Image))
    (hman : getJpegImgs fetchDecode urls = .ok images)
    (hnd : (images.map ImageInfo.name).Nodup) :
    resizeAndStoreImgsToDB noFailOracle images ⟨fs0, []⟩
      = (none, ⟨applyW fs0 (fsWrites images), dbWrites images⟩) ∧
    (resizeAndStoreImgsToDB noFailOracle images ⟨fs0, []⟩).2.db.length = 3 * urls.length ∧
    smallSize = ⟨320, 240⟩ ∧ mediumSize = ⟨384, 288⟩ ∧ largeSize = ⟨640, 480⟩ := by
  have hOk : runOk noFailOracle images := fun x _ s _ => ⟨rfl, rfl⟩
  have hrun : resizeAndStoreImgsToDB noFailOracle images ⟨fs0, []⟩
      = (none, ⟨applyW fs0 (fsWrites images), dbWrites images⟩) := by
    rw [run_of_runOk noFailOracle images ⟨fs0, []⟩ hOk]
    show (none, (⟨applyW fs0 (fsWrites images), applyW [] (dbWrites images)⟩ : PState))
      = (none, (⟨applyW fs0 (fsWrites images), dbWrites images⟩ : PState))
    rw [applyW_of_fresh (nodup_dbKeys images hnd) (fun k _ hk => by simp at hk),
      List.nil_append]
  refine ⟨hrun, ?_, rfl, rfl, rfl⟩
  rw [hrun]
  show (dbWrites images).length = 3 * urls.length
  rw [length_dbWrites, (getJpegImgs_ok_forall₂ fetchDecode urls images hman).length_eq]

/-- C6 counterexample: two distinct manifest references whose URLs derive
the same logical name "x". Both succeed, yet the run produces 3 index
records, not 3N = 6: the upserts of the second reference overwrite the
records of the first, so the claim as universally stated is false. -/
theorem c6_counterexample :
    getJpegImgs (fun _ => .ok ⟨800, 600, 9⟩) [⟨"http://a/x.jpg"⟩, ⟨"http://b/x.jpg"⟩]
      = .ok [⟨⟨800, 600, 9⟩, "x"⟩, ⟨⟨800, 600, 9⟩, "x"⟩] ∧
    (resizeAndStoreImgsToDB noFailOracle [⟨⟨800, 600, 9⟩, "x"⟩, ⟨⟨800, 600, 9⟩, "x"⟩]
        ⟨[], []⟩).1 = none ∧
    (resizeAndStoreImgsToDB noFailOracle [⟨⟨800, 600, 9⟩, "x"⟩, ⟨⟨800, 600, 9⟩, "x"⟩]
        ⟨[], []⟩).2.db.length = 3 ∧
    3 ≠ 3 * ([⟨"http://a/x.jpg"⟩, ⟨"http://b/x.jpg"⟩] : List Url).length := by
  exact ⟨by decide, by decide, by decide, by decide⟩

/-- C6 witness: the amended theorem applied to a concrete two-reference
manifest with distinct derived names - 6 records. -/
theorem c6_witness :
    (resizeAndStoreImgsToDB noFailOracle
        [⟨⟨800, 600, 1⟩, "a"⟩, ⟨⟨1024, 768, 2⟩, "b"⟩] ⟨[], []⟩).2.db.length
      = 3 * ([⟨"http://h/a.jpg"⟩, ⟨"http://h/b.jpg"⟩] : List Url).length :=
  (c6_fanout demoFetch [⟨"http://h/a.jpg"⟩, ⟨"http://h/b.jpg"⟩]
    [⟨⟨800, 600, 1⟩, "a"⟩, ⟨⟨1024, 768, 2⟩, "b"⟩] [] (by decide) (by decide)).2.1

end SkyhubModel
